import Mathlib

/-!
# Verification of `serenity_analysis/word_endings.py`

A shallow embedding of the word-frequency analysis pipeline:
loader (`load_word_counts`), letter aggregators (`count_word_endings`,
`count_word_beginnings`), sorter (`sort_endings`), keyboard side mapper
(`key_to_side`, `summarize_sides`) and the reporter's percentage
arithmetic from `main`.

Python `dict`s are embedded as association lists with Python's
insertion-order semantics: assigning to an existing key updates the
value in place (keeping its position), assigning a fresh key appends it.
Python `int` counts are embedded as `Int`; the reporter's `float`
percentages are embedded as exact rationals `ℚ`.
-/

namespace WordEndings

/-- Python dict assignment `d[k] = v` on an insertion-ordered dict:
replace the value at the first occurrence of `k` in place, or append
`(k, v)` when `k` is absent. -/
def dictInsert {α β : Type} [DecidableEq α] (k : α) (v : β) :
    List (α × β) → List (α × β)
  | [] => [(k, v)]
  | (k₁, v₁) :: rest =>
    if k₁ = k then (k, v) :: rest else (k₁, v₁) :: dictInsert k v rest

/-- Python `d.get(k)`: the value at the first occurrence of `k`, if any. -/
def dictGet {α β : Type} [DecidableEq α] (l : List (α × β)) (k : α) :
    Option β :=
  (l.find? (fun p => p.1 = k)).map (fun p => p.2)

/-- Python `d.get(k, dflt)` / `defaultdict` read with default. -/
def dictGetD {α β : Type} [DecidableEq α] (l : List (α × β)) (k : α)
    (dflt : β) : β :=
  (dictGet l k).getD dflt

/-- Sum of the values of an association list (the "sum of all values in
the input mapping" of the claims). -/
def sumValues {α : Type} (l : List (α × Int)) : Int :=
  (l.map Prod.snd).sum

/-- Digit accumulation of Python `int()` after the first digit:
further digits, with single underscores allowed between two digits. -/
def pyDigitsCore : Nat → List Char → Option Nat
  | acc, [] => some acc
  | acc, '_' :: c :: rest =>
    if c.isDigit then pyDigitsCore (acc * 10 + (c.toNat - 48)) rest else none
  | acc, c :: rest =>
    if c.isDigit then pyDigitsCore (acc * 10 + (c.toNat - 48)) rest else none

/-- The digit part of Python `int()`: a nonempty digit string (ASCII
digits modelled), underscores permitted only between digits. -/
def pyDigitsStart : List Char → Option Nat
  | [] => none
  | c :: rest =>
    if c.isDigit then pyDigitsCore (c.toNat - 48) rest else none

/-- Strip leading and trailing whitespace from a character list (the
whitespace stripping Python `int()` performs on its argument). -/
def stripWs (l : List Char) : List Char :=
  ((l.dropWhile Char.isWhitespace).reverse.dropWhile Char.isWhitespace).reverse

/-- Python `int(s)` on a string, returning `none` where Python raises
`ValueError`: surrounding whitespace stripped, an optional single sign,
then a nonempty run of (ASCII-modelled) digits. -/
def pyInt (s : String) : Option Int :=
  match stripWs s.data with
  | [] => none
  | '-' :: rest => (pyDigitsStart rest).map (fun n => -(n : Int))
  | '+' :: rest => (pyDigitsStart rest).map (fun n => (n : Int))
  | l => (pyDigitsStart l).map (fun n => (n : Int))

/-- One iteration of the loader's `for row in reader` loop body:
skip rows that are not exactly two fields, parse the count with
`int(...)` (skipping on `ValueError`), and keep the row only when the
parsed count is at least 500 000. -/
def loadStep (counts : List (String × Int)) (row : List String) :
    List (String × Int) :=
  match row with
  | [word, countStr] =>
    match pyInt countStr with
    | some count =>
      if 500000 ≤ count then dictInsert word count counts else counts
    | none => counts
  | _ => counts

/-- `load_word_counts`: fold the loader's loop body over the
tab-split rows of the input file, starting from the empty dict. -/
def load_word_counts (rows : List (List String)) : List (String × Int) :=
  rows.foldl loadStep []

/-- `string.ascii_lowercase` as a list of characters. -/
def ascii_lowercase : List Char :=
  "abcdefghijklmnopqrstuvwxyz".data

/-- Python's tuple comparison on `(letter, count)` items, as used by
`sorted(d.items())`: lexicographic on the pair. -/
def itemLe (x y : Char × Int) : Bool :=
  x.1 < y.1 || (x.1 = y.1 && decide (x.2 ≤ y.2))

/-- `sorted(d.items())` on letter-total items (ascending, by tuple). -/
def sortItems (l : List (Char × Int)) : List (Char × Int) :=
  l.mergeSort itemLe

/-- One iteration of the ending aggregator's loop body: skip empty
words, lowercase the last character, and when it is in
`string.ascii_lowercase` add the count to that letter's running total. -/
def endingsStep (endings : List (Char × Int)) (p : String × Int) :
    List (Char × Int) :=
  match p.1.data.getLast? with
  | none => endings
  | some ch =>
    let last_char := ch.toLower
    if ascii_lowercase.contains last_char then
      dictInsert last_char (dictGetD endings last_char 0 + p.2) endings
    else endings

/-- `count_word_endings`: aggregate counts by the lowercased last
letter of each word, then return `dict(sorted(endings.items()))`. -/
def count_word_endings (word_counts : List (String × Int)) :
    List (Char × Int) :=
  sortItems (word_counts.foldl endingsStep [])

/-- One iteration of the beginning aggregator's loop body: as
`endingsStep` but on the first character of the word. -/
def beginningsStep (beginnings : List (Char × Int)) (p : String × Int) :
    List (Char × Int) :=
  match p.1.data.head? with
  | none => beginnings
  | some ch =>
    let first_char := ch.toLower
    if ascii_lowercase.contains first_char then
      dictInsert first_char (dictGetD beginnings first_char 0 + p.2) beginnings
    else beginnings

/-- `count_word_beginnings`: aggregate counts by the lowercased first
letter of each word, then return `dict(sorted(beginnings.items()))`. -/
def count_word_beginnings (word_counts : List (String × Int)) :
    List (Char × Int) :=
  sortItems (word_counts.foldl beginningsStep [])

/-- The comparison realised by Python's stable
`sorted(items, key=lambda x: x[1], reverse=True)`: counts descending,
with ties (equal counts) keeping their original order. -/
def countDescLe (x y : Char × Int) : Bool :=
  decide (y.2 ≤ x.2)

/-- `sort_endings`: sort alphabetically (by item tuple) by default, or
by count descending when `sort_by_count` is set. -/
def sort_endings (endings : List (Char × Int))
    (sort_by_count : Bool := false) : List (Char × Int) :=
  if sort_by_count then endings.mergeSort countDescLe
  else sortItems endings

/-- The static `keyboard` table: three rows, each mapping a side to its
five keys. -/
def keyboard : List (String × List (String × List Char)) :=
  [("row1", [("left", ['q', 'l', 'g', 'w', 'v']),
             ("right", ['j', 'f', 'o', 'u', '-'])]),
   ("row2", [("left", ['r', 'n', 't', 's', 'p']),
             ("right", ['y', 'h', 'e', 'a', 'i'])]),
   ("row3", [("left", ['x', 'z', 'm', 'c', 'b']),
             ("right", ['k', 'd', '\'', ',', '.'])])]

/-- `key_to_side`: the module-level loops that flatten `keyboard` into
a key → side dict. -/
def key_to_side : List (Char × String) :=
  keyboard.foldl (fun acc row =>
    row.2.foldl (fun acc sideKeys =>
      sideKeys.2.foldl (fun acc key => dictInsert key sideKeys.1 acc) acc)
      acc) []

/-- The fixed-key dict `{"left": 0, "right": 0, "unknown": 0}`. -/
structure SideCounts where
  left : Int
  right : Int
  unknown : Int
deriving DecidableEq, Repr

/-- One iteration of `summarize_sides`' loop body over a given lookup
table: add the count to the grand total, then to the bucket of
`key_to_side.get(letter)` when that is `"left"` or `"right"`, and to
`"unknown"` otherwise. -/
def summarizeStep (table : List (Char × String)) (acc : SideCounts × Int)
    (p : Char × Int) : SideCounts × Int :=
  let total := acc.2 + p.2
  match dictGet table p.1 with
  | some side =>
    if side = "left" then ({ acc.1 with left := acc.1.left + p.2 }, total)
    else if side = "right" then
      ({ acc.1 with right := acc.1.right + p.2 }, total)
    else ({ acc.1 with unknown := acc.1.unknown + p.2 }, total)
  | none => ({ acc.1 with unknown := acc.1.unknown + p.2 }, total)

/-- `summarize_sides` generalised over the letter-to-side table it
closes over (the code uses the module-level `key_to_side`). -/
def summarize_sides_with (table : List (Char × String))
    (endings : List (Char × Int)) : SideCounts × Int :=
  endings.foldl (summarizeStep table) (⟨0, 0, 0⟩, 0)

/-- `summarize_sides`: the code's function, over `key_to_side`. -/
def summarize_sides (endings : List (Char × Int)) : SideCounts × Int :=
  summarize_sides_with key_to_side endings

/-- The reporter's percentage expression
`(side_total / grand_total * 100) if grand_total else 0`, with the
division carried out exactly in `ℚ`. -/
def report_pct (side_total grand_total : Int) : ℚ :=
  if grand_total = 0 then 0
  else (side_total : ℚ) / (grand_total : ℚ) * 100

/-- `main`'s endings-side summary: `summarize_sides(endings)` applied
to the sorted endings table. -/
def end_side_summary (word_counts : List (String × Int))
    (sort_by_count : Bool) : SideCounts × Int :=
  summarize_sides (sort_endings (count_word_endings word_counts) sort_by_count)

/-- `main`'s beginnings-side summary: `summarize_sides(beginnings)`. -/
def beg_side_summary (word_counts : List (String × Int))
    (sort_by_count : Bool) : SideCounts × Int :=
  summarize_sides
    (sort_endings (count_word_beginnings word_counts) sort_by_count)

/-- `main`'s `combined_left_pct`: the ending-based left percentage plus
the beginning-based left percentage, each normalised by its own grand
total with the zero-total guard. -/
def combined_left_pct (word_counts : List (String × Int))
    (sort_by_count : Bool) : ℚ :=
  report_pct (end_side_summary word_counts sort_by_count).1.left
      (end_side_summary word_counts sort_by_count).2 +
    report_pct (beg_side_summary word_counts sort_by_count).1.left
      (beg_side_summary word_counts sort_by_count).2

/-- `main`'s `combined_right_pct`, analogously. -/
def combined_right_pct (word_counts : List (String × Int))
    (sort_by_count : Bool) : ℚ :=
  report_pct (end_side_summary word_counts sort_by_count).1.right
      (end_side_summary word_counts sort_by_count).2 +
    report_pct (beg_side_summary word_counts sort_by_count).1.right
      (beg_side_summary word_counts sort_by_count).2

/-- The aggregation predicate of the endings aggregator: the word is
non-empty and its last character, lowercased, is one of the 26 ASCII
letters. -/
def endsWithLetter (w : String) : Bool :=
  match w.data.getLast? with
  | none => false
  | some ch => ascii_lowercase.contains ch.toLower

/-- The row outcome of one loader iteration: `some (word, count)` when
the row is exactly two fields, the count parses as an integer and meets
the 500 000 threshold; `none` when the row is skipped or dropped. -/
def keptRow (row : List String) : Option (String × Int) :=
  match row with
  | [word, countStr] =>
    match pyInt countStr with
    | some c => if 500000 ≤ c then some (word, c) else none
    | none => none
  | _ => none

/-- Whether the loader skips a row without touching the dict: the row
does not split into exactly two fields, or its count field does not
parse as an integer. -/
def skippedRow (row : List String) : Bool :=
  match row with
  | [_, countStr] => (pyInt countStr).isNone
  | _ => true

/-! ## Basic dictionary lemmas -/

theorem mem_dictInsert {α β : Type} [DecidableEq α] {k : α} {v : β}
    {l : List (α × β)} {p : α × β} (h : p ∈ dictInsert k v l) :
    p = (k, v) ∨ p ∈ l := by
  induction l with
  | nil => simpa [dictInsert] using h
  | cons q rest ih =>
    by_cases hk : q.1 = k
    · rcases q with ⟨k₁, v₁⟩
      simp only [dictInsert, if_pos hk, List.mem_cons] at h
      rcases h with h | h
      · exact Or.inl h
      · exact Or.inr (List.mem_cons_of_mem _ h)
    · rcases q with ⟨k₁, v₁⟩
      simp only [dictInsert, if_neg hk, List.mem_cons] at h
      rcases h with h | h
      · exact Or.inr (by rw [h]; exact List.mem_cons_self _ _)
      · rcases ih h with h' | h'
        · exact Or.inl h'
        · exact Or.inr (List.mem_cons_of_mem _ h')

theorem dictGet_cons {α β : Type} [DecidableEq α] (k₁ : α) (v₁ : β)
    (rest : List (α × β)) (k : α) :
    dictGet ((k₁, v₁) :: rest) k =
      if k₁ = k then some v₁ else dictGet rest k := by
  by_cases h : k₁ = k <;> simp [dictGet, List.find?_cons, h]

theorem dictGet_dictInsert {α β : Type} [DecidableEq α] (k k' : α) (v : β)
    (l : List (α × β)) :
    dictGet (dictInsert k v l) k' =
      if k = k' then some v else dictGet l k' := by
  induction l with
  | nil => by_cases h : k = k' <;> simp [dictInsert, dictGet, List.find?, h]
  | cons q rest ih =>
    rcases q with ⟨k₁, v₁⟩
    by_cases hk : k₁ = k
    · subst hk
      by_cases h' : k₁ = k' <;>
        simp [dictInsert, dictGet_cons, h']
    · by_cases h' : k₁ = k'
      · subst h'
        have : ¬ k = k₁ := fun hc => hk hc.symm
        simp [dictInsert, hk, dictGet_cons, this]
      · simp [dictInsert, hk, dictGet_cons, h', ih]

theorem sumValues_cons {α : Type} (p : α × Int) (l : List (α × Int)) :
    sumValues (p :: l) = p.2 + sumValues l := by
  simp [sumValues]

theorem sumValues_dictInsert {α : Type} [DecidableEq α] (k : α) (c : Int)
    (l : List (α × Int)) :
    sumValues (dictInsert k (dictGetD l k 0 + c) l) = sumValues l + c := by
  induction l with
  | nil => simp [dictInsert, dictGetD, dictGet, sumValues]
  | cons q rest ih =>
    rcases q with ⟨k₁, v₁⟩
    by_cases hk : k₁ = k
    · subst hk
      simp only [dictGetD, dictGet_cons, if_pos rfl, Option.getD_some,
        dictInsert, if_pos rfl]
      simp [sumValues_cons]
      ring
    · have hD : dictGetD ((k₁, v₁) :: rest) k 0 = dictGetD rest k 0 := by
        simp [dictGetD, dictGet_cons, hk]
      rw [hD]
      simp only [dictInsert, if_neg hk]
      rw [sumValues_cons, sumValues_cons, ih]
      ring

theorem sumValues_perm {α : Type} {l₁ l₂ : List (α × Int)}
    (h : l₁.Perm l₂) : sumValues l₁ = sumValues l₂ :=
  (h.map Prod.snd).sum_eq

/-! ## C1: the loader keeps only counts at or above the threshold -/

theorem loadStep_bound {counts : List (String × Int)}
    (h : ∀ p ∈ counts, (500000 : Int) ≤ p.2) (row : List String) :
    ∀ p ∈ loadStep counts row, (500000 : Int) ≤ p.2 := by
  intro p hp
  rcases row with _ | ⟨w, _ | ⟨cs, _ | _⟩⟩ <;>
    simp only [loadStep] at hp
  · exact h p hp
  · exact h p hp
  · rcases hpi : pyInt cs with _ | c
    · simp only [hpi] at hp; exact h p hp
    · simp only [hpi] at hp
      by_cases hc : (500000 : Int) ≤ c
      · rw [if_pos hc] at hp
        rcases mem_dictInsert hp with rfl | hmem
        · exact hc
        · exact h p hmem
      · rw [if_neg hc] at hp; exact h p hp
  · exact h p hp

theorem load_foldl_bound (rows : List (List String)) :
    ∀ (acc : List (String × Int)),
      (∀ p ∈ acc, (500000 : Int) ≤ p.2) →
      ∀ p ∈ rows.foldl loadStep acc, (500000 : Int) ≤ p.2 := by
  induction rows with
  | nil => intro acc h p hp; exact h p hp
  | cons row rest ih =>
    intro acc h p hp
    exact ih (loadStep acc row) (loadStep_bound h row) p hp

/-- C1: every row whose parsed count is below 500 000 is absent from the
table `load_word_counts` returns — equivalently, every count stored in
the returned `FrequencyTable` is at least 500 000 (so sub-threshold rows
contribute nothing downstream). -/
theorem c1_threshold (rows : List (List String)) (w : String) (c : Int)
    (h : (w, c) ∈ load_word_counts rows) : (500000 : Int) ≤ c :=
  load_foldl_bound rows [] (by simp) (w, c) h

/-- Witness for C1 at a concrete input file. -/
theorem c1_threshold_witness : (500000 : Int) ≤ 600000 :=
  c1_threshold [["apple", "600000"]] "apple" 600000 (by decide)

/-! ## C2: side counts partition the grand total -/

theorem summarizeStep_spec (table : List (Char × String))
    (acc : SideCounts × Int) (p : Char × Int) :
    (summarizeStep table acc p).1.left + (summarizeStep table acc p).1.right +
        (summarizeStep table acc p).1.unknown =
      acc.1.left + acc.1.right + acc.1.unknown + p.2 ∧
    (summarizeStep table acc p).2 = acc.2 + p.2 := by
  unfold summarizeStep
  rcases dictGet table p.1 with _ | side
  · simp; ring
  · by_cases h₁ : side = "left"
    · simp [h₁]; ring
    · by_cases h₂ : side = "right" <;> simp [h₁, h₂] <;> ring

theorem summarize_foldl_spec (table : List (Char × String))
    (e : List (Char × Int)) :
    ∀ acc : SideCounts × Int,
      (e.foldl (summarizeStep table) acc).1.left +
          (e.foldl (summarizeStep table) acc).1.right +
          (e.foldl (summarizeStep table) acc).1.unknown =
        acc.1.left + acc.1.right + acc.1.unknown + sumValues e ∧
      (e.foldl (summarizeStep table) acc).2 = acc.2 + sumValues e := by
  induction e with
  | nil => intro acc; simp [sumValues]
  | cons p rest ih =>
    intro acc
    rcases ih (summarizeStep table acc p) with ⟨ih₁, ih₂⟩
    rcases summarizeStep_spec table acc p with ⟨hs₁, hs₂⟩
    constructor
    · rw [List.foldl_cons, ih₁, hs₁, sumValues_cons]; ring
    · rw [List.foldl_cons, ih₂, hs₂, sumValues_cons]; ring

/-- C2: for any letter-to-side table and any `LetterTotals`, the side
buckets returned by `summarize_sides` sum exactly to the returned grand
total, which is the sum of all values of the input mapping; in
particular this holds for the code's own `summarize_sides` over
`key_to_side`. -/
theorem c2_sides_partition_total (table : List (Char × String))
    (e : List (Char × Int)) :
    ((summarize_sides_with table e).1.left +
        (summarize_sides_with table e).1.right +
        (summarize_sides_with table e).1.unknown =
      (summarize_sides_with table e).2 ∧
     (summarize_sides_with table e).2 = sumValues e) ∧
    ((summarize_sides e).1.left + (summarize_sides e).1.right +
        (summarize_sides e).1.unknown =
      (summarize_sides e).2 ∧
     (summarize_sides e).2 = sumValues e) := by
  have h := summarize_foldl_spec table e (⟨0, 0, 0⟩, 0)
  have h' := summarize_foldl_spec key_to_side e (⟨0, 0, 0⟩, 0)
  constructor
  · exact ⟨by rw [summarize_sides_with, h.1, h.2]; ring_nf, by
      rw [summarize_sides_with, h.2]; ring_nf⟩
  · exact ⟨by
      rw [summarize_sides, summarize_sides_with, h'.1, h'.2]; ring_nf, by
      rw [summarize_sides, summarize_sides_with, h'.2]; ring_nf⟩

/-! ## C3: the endings totals conserve exactly the qualifying counts -/

theorem endings_foldl_sum (wc : List (String × Int)) :
    ∀ acc : List (Char × Int),
      sumValues (wc.foldl endingsStep acc) =
        sumValues acc +
          sumValues (wc.filter (fun p => endsWithLetter p.1)) := by
  induction wc with
  | nil => intro acc; simp [sumValues]
  | cons p rest ih =>
    intro acc
    rw [List.foldl_cons, List.filter_cons]
    rcases hl : p.1.data.getLast? with _ | ch
    · have hpred : endsWithLetter p.1 = false := by
        simp [endsWithLetter, hl]
      have hstep : endingsStep acc p = acc := by
        simp [endingsStep, hl]
      rw [hstep, ih, hpred]
      simp
    · by_cases hc : ch.toLower ∈ ascii_lowercase
      · have hpred : endsWithLetter p.1 = true := by
          simp [endsWithLetter, hl, hc]
        have hstep : endingsStep acc p =
            dictInsert ch.toLower (dictGetD acc ch.toLower 0 + p.2) acc := by
          simp [endingsStep, hl, hc]
        rw [hstep, ih, sumValues_dictInsert, hpred]
        rw [if_pos rfl, sumValues_cons]
        ring
      · have hpred : endsWithLetter p.1 = false := by
          simp [endsWithLetter, hl, hc]
        have hstep : endingsStep acc p = acc := by
          simp [endingsStep, hl, hc]
        rw [hstep, ih, hpred]
        simp

/-- C3: the sum of all values of the `LetterTotals` returned by
`count_word_endings` equals the sum of the counts of exactly those
entries whose word is non-empty and whose lowercased last character is
an ASCII letter a–z; entries failing the predicate contribute 0. -/
theorem c3_endings_sum_conserved (wc : List (String × Int)) :
    sumValues (count_word_endings wc) =
      sumValues (wc.filter (fun p => endsWithLetter p.1)) := by
  have hperm : (sortItems (wc.foldl endingsStep [])).Perm
      (wc.foldl endingsStep []) := List.mergeSort_perm _ _
  rw [count_word_endings, sumValues_perm hperm, endings_foldl_sum wc []]
  simp [sumValues]

/-! ## C4: duplicate words — which occurrence the table retains -/

theorem loadStep_eq_keptRow (acc : List (String × Int)) (row : List String) :
    loadStep acc row =
      match keptRow row with
      | some p => dictInsert p.1 p.2 acc
      | none => acc := by
  rcases row with _ | ⟨w, _ | ⟨cs, _ | _⟩⟩ <;>
    simp only [loadStep, keptRow]
  rcases hpi : pyInt cs with _ | c
  · rfl
  · by_cases hc : (500000 : Int) ≤ c <;> simp [hc]

theorem load_foldl_filterMap (rows : List (List String)) :
    ∀ acc : List (String × Int),
      rows.foldl loadStep acc =
        (rows.filterMap keptRow).foldl
          (fun acc p => dictInsert p.1 p.2 acc) acc := by
  induction rows with
  | nil => intro acc; simp
  | cons row rest ih =>
    intro acc
    rw [List.foldl_cons, List.filterMap_cons, loadStep_eq_keptRow]
    rcases hk : keptRow row with _ | p
    · exact ih acc
    · rw [List.foldl_cons]
      exact ih (dictInsert p.1 p.2 acc)

theorem getLast?_cons_or {α : Type} (a : α) (l : List α) :
    (a :: l).getLast? = l.getLast?.or (some a) := by
  cases l with
  | nil => simp
  | cons b t =>
    rw [List.getLast?_cons_cons]
    rcases h : (b :: t).getLast? with _ | x
    · simp at h
    · simp

theorem dictGet_insert_foldl {α β : Type} [DecidableEq α]
    (kept : List (α × β)) :
    ∀ (acc : List (α × β)) (w : α),
      dictGet (kept.foldl (fun acc p => dictInsert p.1 p.2 acc) acc) w =
        (((kept.filter (fun p => p.1 = w)).getLast?).map Prod.snd).or
          (dictGet acc w) := by
  induction kept with
  | nil => intro acc w; simp
  | cons p rest ih =>
    intro acc w
    rw [List.foldl_cons, ih, List.filter_cons]
    by_cases hw : p.1 = w
    · rw [if_pos (by simpa using hw), getLast?_cons_or]
      rcases hlast : (rest.filter (fun p => decide (p.1 = w))).getLast?
        with _ | q
      · rw [hlast]
        simp [dictGet_dictInsert, hw]
      · rw [hlast]
        simp
    · rw [if_neg (by simpa using hw)]
      rw [dictGet_dictInsert]
      rw [if_neg (fun hc => hw hc)]

/-- C4 (amended): `load_word_counts` maps each word to the count of its
last *kept* occurrence — the last well-formed line for that word whose
integer count is at least 500 000; later sub-threshold or malformed
lines for the word are skipped and do not displace that value. -/
theorem c4_last_kept_occurrence_wins (rows : List (List String))
    (w : String) :
    dictGet (load_word_counts rows) w =
      (((rows.filterMap keptRow).filter
          (fun p => p.1 = w)).getLast?).map Prod.snd := by
  rw [load_word_counts, load_foldl_filterMap, dictGet_insert_foldl]
  simp [dictGet]

/-- Counterexample to C4 as stated: the word `"w"` appears on two
well-formed integer-count lines (counts 600 000 and 0), yet the table
maps `"w"` to 600 000, the count of the *first* occurrence, not the
last — the sub-threshold last occurrence is skipped, not applied. -/
theorem c4_counterexample :
    pyInt "0" = some 0 ∧
      dictGet (load_word_counts [["w", "600000"], ["w", "0"]]) "w" =
        some 600000 ∧
      dictGet (load_word_counts [["w", "600000"], ["w", "0"]]) "w" ≠
        some 0 := by
  refine ⟨rfl, rfl, ?_⟩
  decide

/-! ## C9: malformed and non-integer lines are skipped silently -/

theorem loadStep_skip (acc : List (String × Int)) (row : List String)
    (h : skippedRow row = true) : loadStep acc row = acc := by
  rcases row with _ | ⟨w, _ | ⟨cs, _ | _⟩⟩ <;> try rfl
  simp only [skippedRow, Option.isNone_iff_eq_none] at h
  simp [loadStep, h]

/-- C9: a line that does not split into exactly two fields, or whose
count field does not parse as an integer, is skipped without raising:
it leaves the resulting `FrequencyTable` untouched and the remaining
lines are still processed. -/
theorem c9_malformed_line_skipped (pre post : List (List String))
    (bad : List String) (h : skippedRow bad = true) :
    load_word_counts (pre ++ bad :: post) =
      load_word_counts (pre ++ post) := by
  rw [load_word_counts, load_word_counts, List.foldl_append,
    List.foldl_append, List.foldl_cons, loadStep_skip _ _ h]

/-- Witness for C9: a one-field line in the middle of a file changes
nothing. -/
theorem c9_malformed_line_skipped_witness :
    skippedRow ["x"] = true ∧
      load_word_counts [["apple", "600000"], ["x"], ["banana", "500000"]] =
        load_word_counts [["apple", "600000"], ["banana", "500000"]] :=
  ⟨rfl,
    c9_malformed_line_skipped [["apple", "600000"]] [["banana", "500000"]]
      ["x"] rfl⟩

/-! ## C7: every letter a–z is mapped, so "unknown" stays 0 -/

theorem summarize_foldl_unknown (table : List (Char × String))
    (e : List (Char × Int)) :
    ∀ acc : SideCounts × Int,
      (∀ p ∈ e, dictGet table p.1 = some "left" ∨
          dictGet table p.1 = some "right") →
      (e.foldl (summarizeStep table) acc).1.unknown = acc.1.unknown := by
  induction e with
  | nil => intro acc _; rfl
  | cons p rest ih =>
    intro acc h
    rw [List.foldl_cons]
    have hstep : (summarizeStep table acc p).1.unknown = acc.1.unknown := by
      rcases h p (List.mem_cons_self _ _) with hp | hp <;>
        simp [summarizeStep, hp]
    rw [ih _ (fun q hq => h q (List.mem_cons_of_mem _ hq)), hstep]

/-- C7: the fixed keyboard table maps each of the 26 lowercase ASCII
letters to `"left"` or `"right"`; consequently `summarize_sides`
returns an `"unknown"` bucket of 0 on any `LetterTotals` whose keys
are all in a–z. -/
theorem c7_all_letters_sided :
    (∀ c ∈ ascii_lowercase,
        dictGet key_to_side c = some "left" ∨
          dictGet key_to_side c = some "right") ∧
    ∀ e : List (Char × Int), (∀ p ∈ e, p.1 ∈ ascii_lowercase) →
      (summarize_sides e).1.unknown = 0 := by
  have hmap : ∀ c ∈ ascii_lowercase,
      dictGet key_to_side c = some "left" ∨
        dictGet key_to_side c = some "right" := by decide
  refine ⟨hmap, fun e he => ?_⟩
  exact summarize_foldl_unknown key_to_side e (⟨0, 0, 0⟩, 0)
    (fun p hp => hmap p.1 (he p hp))

/-- Witness for C7 on a concrete a–z-keyed mapping. -/
theorem c7_all_letters_sided_witness :
    (summarize_sides [('a', 3)]).1.unknown = 0 :=
  c7_all_letters_sided.2 [('a', 3)] (by decide)

/-! ## Order facts about the two sort comparators -/

theorem itemLe_trans (a b c : Char × Int) (h₁ : itemLe a b)
    (h₂ : itemLe b c) : itemLe a c := by
  simp only [itemLe, Bool.or_eq_true, Bool.and_eq_true,
    decide_eq_true_eq] at *
  rcases h₁ with h₁ | ⟨h₁e, h₁le⟩ <;> rcases h₂ with h₂ | ⟨h₂e, h₂le⟩
  · exact Or.inl (lt_trans h₁ h₂)
  · exact Or.inl (h₂e ▸ h₁)
  · exact Or.inl (h₁e ▸ h₂)
  · exact Or.inr ⟨h₁e.trans h₂e, le_trans h₁le h₂le⟩

theorem itemLe_total (a b : Char × Int) : itemLe a b || itemLe b a := by
  simp only [itemLe, Bool.or_eq_true, Bool.and_eq_true, decide_eq_true_eq]
  rcases lt_trichotomy a.1 b.1 with h | h | h
  · exact Or.inl (Or.inl h)
  · rcases le_total a.2 b.2 with h₂ | h₂
    · exact Or.inl (Or.inr ⟨h, h₂⟩)
    · exact Or.inr (Or.inr ⟨h.symm, h₂⟩)
  · exact Or.inr (Or.inl h)

theorem countDescLe_trans (a b c : Char × Int) (h₁ : countDescLe a b)
    (h₂ : countDescLe b c) : countDescLe a c := by
  simp only [countDescLe, decide_eq_true_eq] at *
  exact le_trans h₂ h₁

theorem countDescLe_total (a b : Char × Int) :
    countDescLe a b || countDescLe b a := by
  simp only [countDescLe, Bool.or_eq_true, decide_eq_true_eq]
  exact (le_total b.2 a.2).imp id id

theorem sortItems_strict_keys (l : List (Char × Int))
    (h : (l.map Prod.fst).Nodup) :
    ((sortItems l).map Prod.fst).Sorted (· < ·) := by
  have hpair : (sortItems l).Pairwise (fun x y => itemLe x y = true) :=
    List.sorted_mergeSort itemLe_trans itemLe_total l
  have hperm : (sortItems l).Perm l := List.mergeSort_perm l itemLe
  have hnodup : ((sortItems l).map Prod.fst).Nodup :=
    ((hperm.map Prod.fst).nodup_iff).mpr h
  have hne : (sortItems l).Pairwise (fun x y => x.1 ≠ y.1) :=
    (List.pairwise_map).mp hnodup
  refine (List.pairwise_map).mpr ?_
  refine (hpair.and hne).imp ?_
  rintro a b ⟨hle, hneq⟩
  simp only [itemLe, Bool.or_eq_true, Bool.and_eq_true,
    decide_eq_true_eq] at hle
  rcases hle with hle | ⟨hle, -⟩
  · exact hle
  · exact absurd hle hneq

/-! ## Unique keys of the aggregated dictionaries -/

theorem keys_dictInsert {α β : Type} [DecidableEq α] (k : α) (v : β)
    (l : List (α × β)) :
    (dictInsert k v l).map Prod.fst =
      if k ∈ l.map Prod.fst then l.map Prod.fst
      else l.map Prod.fst ++ [k] := by
  induction l with
  | nil => simp [dictInsert]
  | cons q rest ih =>
    rcases q with ⟨k₁, v₁⟩
    by_cases hk : k₁ = k
    · subst hk
      simp [dictInsert]
    · have hne : ¬ k = k₁ := fun hc => hk hc.symm
      by_cases hm : k ∈ rest.map Prod.fst <;>
        simp [dictInsert, hk, hne, hm, ih]

theorem nodup_keys_dictInsert {α β : Type} [DecidableEq α] {k : α} {v : β}
    {l : List (α × β)} (h : (l.map Prod.fst).Nodup) :
    ((dictInsert k v l).map Prod.fst).Nodup := by
  rw [keys_dictInsert]
  by_cases hk : k ∈ l.map Prod.fst
  · rwa [if_pos hk]
  · rw [if_neg hk]
    refine h.append (List.nodup_singleton k) ?_
    intro x hx hmem
    rcases List.mem_singleton.mp hmem with rfl
    exact hk hx

theorem nodup_keys_endingsStep {acc : List (Char × Int)}
    (h : (acc.map Prod.fst).Nodup) (p : String × Int) :
    ((endingsStep acc p).map Prod.fst).Nodup := by
  unfold endingsStep
  rcases p.1.data.getLast? with _ | ch
  · exact h
  · by_cases hc : ascii_lowercase.contains ch.toLower <;> simp only [hc]
    · exact nodup_keys_dictInsert h
    · simpa using h

theorem nodup_keys_beginningsStep {acc : List (Char × Int)}
    (h : (acc.map Prod.fst).Nodup) (p : String × Int) :
    ((beginningsStep acc p).map Prod.fst).Nodup := by
  unfold beginningsStep
  rcases p.1.data.head? with _ | ch
  · exact h
  · by_cases hc : ascii_lowercase.contains ch.toLower <;> simp only [hc]
    · exact nodup_keys_dictInsert h
    · simpa using h

theorem nodup_keys_endings_foldl (wc : List (String × Int)) :
    ∀ acc : List (Char × Int), (acc.map Prod.fst).Nodup →
      ((wc.foldl endingsStep acc).map Prod.fst).Nodup := by
  induction wc with
  | nil => intro acc h; exact h
  | cons p rest ih =>
    intro acc h
    exact ih (endingsStep acc p) (nodup_keys_endingsStep h p)

theorem nodup_keys_beginnings_foldl (wc : List (String × Int)) :
    ∀ acc : List (Char × Int), (acc.map Prod.fst).Nodup →
      ((wc.foldl beginningsStep acc).map Prod.fst).Nodup := by
  induction wc with
  | nil => intro acc h; exact h
  | cons p rest ih =>
    intro acc h
    exact ih (beginningsStep acc p) (nodup_keys_beginningsStep h p)

/-! ## C10: the aggregators return their keys already sorted -/

/-- C10: `count_word_endings` and `count_word_beginnings` both return
mappings whose keys are already in strictly ascending alphabetical
order (they sort before returning), before any `sort_endings` call. -/
theorem c10_aggregators_sorted (wc : List (String × Int)) :
    ((count_word_endings wc).map Prod.fst).Sorted (· < ·) ∧
      ((count_word_beginnings wc).map Prod.fst).Sorted (· < ·) :=
  ⟨sortItems_strict_keys _ (nodup_keys_endings_foldl wc [] (by simp)),
    sortItems_strict_keys _ (nodup_keys_beginnings_foldl wc [] (by simp))⟩

/-! ## C5: totality, permutation, ordering and stability of the sort -/

theorem mergeSort_countDesc_filter_fixed (e : List (Char × Int)) (c : Int) :
    (e.mergeSort countDescLe).filter (fun p => p.2 = c) =
      e.filter (fun p => p.2 = c) := by
  have hpw : (e.filter (fun p => decide (p.2 = c))).Pairwise
      (fun x y => countDescLe x y = true) := by
    refine List.pairwise_of_forall_mem_list ?_
    intro x hx y hy
    have hxc : x.2 = c := by simpa using (List.mem_filter.mp hx).2
    have hyc : y.2 = c := by simpa using (List.mem_filter.mp hy).2
    simp [countDescLe, hxc, hyc]
  have hsub : List.Sublist (e.filter (fun p => decide (p.2 = c)))
      (e.mergeSort countDescLe) :=
    List.sublist_mergeSort countDescLe_trans countDescLe_total hpw
      (List.filter_sublist e)
  have hsub₂ : List.Sublist (e.filter (fun p => decide (p.2 = c)))
      ((e.mergeSort countDescLe).filter (fun p => decide (p.2 = c))) := by
    have h' := hsub.filter (fun p => decide (p.2 = c))
    rwa [List.filter_eq_self.mpr
      (fun x hx => (List.mem_filter.mp hx).2)] at h'
  have hperm : ((e.mergeSort countDescLe).filter
      (fun p => decide (p.2 = c))).Perm
        (e.filter (fun p => decide (p.2 = c))) :=
    (List.mergeSort_perm e countDescLe).filter _
  exact (hsub₂.eq_of_length hperm.length_eq.symm).symm

/-- C5: `sort_endings` is total and returns a permutation of its input;
in the default mode the keys come out in strictly increasing
lexicographic order (given the unique keys of a mapping), in
`sort_by_count` mode the values come out non-increasing, and that sort
is stable — entries with equal counts keep their input order. -/
theorem c5_sort_endings_correct (e : List (Char × Int)) (b : Bool) :
    (sort_endings e b).Perm e ∧
      ((e.map Prod.fst).Nodup →
        ((sort_endings e false).map Prod.fst).Sorted (· < ·)) ∧
      (((sort_endings e true).map Prod.snd).Sorted (· ≥ ·)) ∧
      ∀ c : Int, (sort_endings e true).filter (fun p => p.2 = c) =
        e.filter (fun p => p.2 = c) := by
  refine ⟨?_, ?_, ?_, ?_⟩
  · cases b <;> simp only [sort_endings, sortItems, if_true, if_false] <;>
      exact List.mergeSort_perm e _
  · intro h
    exact sortItems_strict_keys e h
  · have hpair : (e.mergeSort countDescLe).Pairwise
        (fun x y => countDescLe x y = true) :=
      List.sorted_mergeSort countDescLe_trans countDescLe_total e
    refine (List.pairwise_map).mpr ?_
    refine hpair.imp ?_
    intro a b hab
    simpa [countDescLe, ge_iff_le] using hab
  · intro c
    exact mergeSort_countDesc_filter_fixed e c

/-- Witness for C5 at a concrete mapping with duplicate counts. -/
theorem c5_sort_endings_correct_witness :
    ((sort_endings [('b', 5), ('a', 5)] false).map Prod.fst).Sorted
      (· < ·) :=
  (c5_sort_endings_correct [('b', 5), ('a', 5)] false).2.1 (by decide)

/-! ## C6: the division-by-zero guard in the reporter -/

theorem c6_zero_total_guard (s t : Int) :
    (t = 0 → report_pct s t = 0) /\
      (t ≠ 0 → report_pct s t = (s : ℚ) / (t : ℚ) * 100) /\
      ((end_side_summary [] false).2 = 0 /\
        report_pct (end_side_summary [] false).1.left
            (end_side_summary [] false).2 = 0 /\
        report_pct (end_side_summary [] false).1.right
            (end_side_summary [] false).2 = 0) := by
  have h1 : count_word_endings ([] : List (String × Int)) = [] := by
    simp [count_word_endings, sortItems]
  have h2 : end_side_summary [] false = (⟨0, 0, 0⟩, 0) := by
    simp [end_side_summary, sort_endings, h1, sortItems, summarize_sides,
      summarize_sides_with]
  refine ⟨fun h => by simp [report_pct, h],
    fun h => by simp [report_pct, h], ?_, ?_, ?_⟩
  · rw [h2]
  · rw [h2]; simp [report_pct]
  · rw [h2]; simp [report_pct]

/-- Witness for C6: a zero grand total reports a 0 percentage. -/
theorem c6_zero_total_guard_witness : report_pct 7 0 = 0 :=
  (c6_zero_total_guard 7 0).1 rfl

/-! ## C8: the combined summary adds two normalised percentages -/

theorem c8_combined_percentages :
    (∀ (wc : List (String × Int)) (b : Bool),
        combined_left_pct wc b =
          report_pct (end_side_summary wc b).1.left
              (end_side_summary wc b).2 +
            report_pct (beg_side_summary wc b).1.left
              (beg_side_summary wc b).2 ∧
        combined_right_pct wc b =
          report_pct (end_side_summary wc b).1.right
              (end_side_summary wc b).2 +
            report_pct (beg_side_summary wc b).1.right
              (beg_side_summary wc b).2) ∧
      100 < combined_right_pct [("a", 600000)] false := by
  refine ⟨fun wc b => ⟨rfl, rfl⟩, ?_⟩
  have h1 : List.foldl endingsStep [] [("a", (600000 : Int))] =
      [('a', 600000)] := rfl
  have h2 : List.foldl beginningsStep [] [("a", (600000 : Int))] =
      [('a', 600000)] := rfl
  have h3 : count_word_endings [("a", 600000)] = [('a', 600000)] := by
    rw [count_word_endings, h1, sortItems]
    exact List.mergeSort_singleton _
  have h4 : count_word_beginnings [("a", 600000)] = [('a', 600000)] := by
    rw [count_word_beginnings, h2, sortItems]
    exact List.mergeSort_singleton _
  have h5 : sort_endings [('a', (600000 : Int))] false = [('a', 600000)] := by
    simp [sort_endings, sortItems]
  have h6 : summarize_sides [('a', (600000 : Int))] =
      (⟨0, 600000, 0⟩, 600000) := rfl
  have h7 : end_side_summary [("a", 600000)] false =
      (⟨0, 600000, 0⟩, 600000) := by
    rw [end_side_summary, h3, h5, h6]
  have h8 : beg_side_summary [("a", 600000)] false =
      (⟨0, 600000, 0⟩, 600000) := by
    rw [beg_side_summary, h4, h5, h6]
  rw [combined_right_pct, h7, h8]
  norm_num [report_pct]

end WordEndings
